import Mathlib

/-!
Shallow embedding of `trend_estimation.py` (BC lighthouse SST trend analysis)
together with proofs about the embedded operations.

Modelling conventions:
* Python floats are modelled as exact rationals (`ℚ`) for the time-domain
  statistics and list processing, and as reals / complex numbers for the
  spectral (FFT) and confidence-limit parts.
* NumPy `nan` / `inf` matrix entries (which the source filters away with
  `np.isfinite`) are modelled with `Option`: `none` stands for a non-finite
  entry.
* A Python function that can fall off its end (returning `None`) or raise a
  `NameError` is modelled as returning an `Option`, with `none` for the
  no-result / failure outcome.
* External library calls whose numerics the source does not define
  (`scipy.stats.t.ppf`, `np.random`, the regression backends,
  `statsmodels.acovf`) are taken as explicit function parameters.
-/

namespace TrendEstimation

/-- Model of `np.mean` on a 1-d array: sum divided by length. -/
def mean (y : List ℚ) : ℚ := y.sum / y.length

/-- Autocovariance `C(k, y)` from `trend_estimation.py` lines 40-57:
`C_k = sum over i in range(0, N - k) of (y[i] - y_bar) * (y[i + k] - y_bar)`,
then `C_k *= 1 / (N - 1 - k)`.  The Python quantity `N - 1 - k` is an `int`
that may be negative, hence the subtraction is performed in `ℚ` after
casting, while the range bound `N - k` is clipped at zero exactly as
`range(0, N - k)` is empty for `k ≥ N`. -/
def C (k : ℕ) (y : List ℚ) : ℚ :=
  (∑ i ∈ Finset.range (y.length - k),
      (y.getD i 0 - mean y) * (y.getD (i + k) 0 - mean y)) *
    (1 / ((y.length : ℚ) - 1 - (k : ℚ)))

/-- Integral timescale from `trend_estimation.py` lines 60-77:
`T = sum over k in range(0, m - 1) of dtau / 2 * (C(k+1, y) + C(k, y))`,
then `T *= 2 / C(0, y)`. -/
def integral_timescale_discrete (dtau : ℚ) (y : List ℚ) (m : ℕ) : ℚ :=
  (∑ k ∈ Finset.range (m - 1), dtau / 2 * (C (k + 1) y + C k y)) *
    (2 / C 0 y)

/-- Model of `np.median`: sort, then take the middle element (odd length)
or the average of the two middle elements (even length). -/
def median (l : List ℚ) : ℚ :=
  let s := List.insertionSort (· ≤ ·) l
  if l.length % 2 = 1 then s.getD (l.length / 2) 0
  else (s.getD (l.length / 2 - 1) 0 + s.getD (l.length / 2) 0) / 2

/-- One entry of the pairwise-slope matrix `CC` of `TheilSen_Cummins`
(`trend_estimation.py` line 358): for rows `ri = [x_i, y_i]` and
`rj = [x_j, y_j]` the value `(y_i - y_j) / (x_i - x_j)`.  When
`x_i = x_j` NumPy produces `inf` (if `y_i ≠ y_j`) or `nan` (if also
`y_i = y_j`); either way the entry is non-finite and is removed by the
`np.isfinite` filter on line 360, so it is modelled as `none`. -/
def finiteSlope (ri rj : List ℚ) : Option ℚ :=
  if ri.getD 0 0 = rj.getD 0 0 then none
  else some ((ri.getD 1 0 - rj.getD 1 0) / (ri.getD 0 0 - rj.getD 0 0))

/-- Whether `TheilSen_Cummins` prints its only diagnostic message
(`trend_estimation.py` lines 350-352): it does so exactly when the input
has fewer than 2 rows. -/
def TheilSen_Cummins_size_msg (data : List (List ℚ)) : Bool :=
  data.length < 2

/-- The pairwise-slope matrix `CC` of `TheilSen_Cummins`
(`trend_estimation.py` lines 355-358): row `i` holds, at columns `j ≥ i`,
the slope between observations `i` and `j`; entries below the diagonal stay
at their `NaN` initialisation (`none`). -/
def TheilSen_CC (data : List (List ℚ)) : List (List (Option ℚ)) :=
  (List.range data.length).map fun i =>
    (List.range data.length).map fun j =>
      if i ≤ j then finiteSlope (data.getD i []) (data.getD j []) else none

/-- The finite entries of the pairwise-slope matrix, i.e. `CC[k]` for
`k = np.isfinite(CC)` (`trend_estimation.py` line 360). -/
def TheilSen_slopes (data : List (List ℚ)) : List ℚ :=
  ((TheilSen_CC data).map fun row => row.filterMap id).flatten

/-- The slope estimate `m = np.median(CC[k])` of `TheilSen_Cummins`
(`trend_estimation.py` line 361). -/
def TheilSen_m (data : List (List ℚ)) : ℚ :=
  median (TheilSen_slopes data)

/-- The intercept estimate `bb = np.median(data[kd, 1] - m * data[kd, 0])`
of `TheilSen_Cummins` (`trend_estimation.py` lines 363-365); in the `ℚ`
model every `x` value is finite so `kd` selects all rows. -/
def TheilSen_b (data : List (List ℚ)) : ℚ :=
  median (data.map fun r => r.getD 1 0 - TheilSen_m data * r.getD 0 0)

/-- Function `TheilSen_Cummins` from `trend_estimation.py` lines 338-367.  The input
is an M×D matrix as a list of rows.  With fewer than 2 rows the function
prints a message and returns `None`.  With exactly 2 columns it returns the
slope `m`, intercept `bb` and the pairwise-slope matrix `CC`.  With any
other column count the Python function falls off its end and returns
`None`. -/
def TheilSen_Cummins (data : List (List ℚ)) :
    Option (ℚ × ℚ × List (List (Option ℚ))) :=
  if data.length < 2 then none
  else if (data.headD []).length = 2 then
    some (TheilSen_m data, TheilSen_b data, TheilSen_CC data)
  else none

/-- The `sen_flag == 1` recording step of `monte_carlo_trend`
(`trend_estimation.py` lines 436-440), given the fitted coefficient vector
`res.coef_`.  The source tests `if len(res.coef_ == 1):` — the expression
`res.coef_ == 1` is a NumPy *element-wise* comparison yielding a boolean
array of the same length as `coef_`, so the test is the truthiness of
`len(coef_)` itself; when it holds the trial records `res.coef_[0]`,
otherwise the whole simulation prints a warning and returns `None`. -/
def senFlag1Record (coef : List ℚ) : Option ℚ :=
  if ((coef.map fun c => decide (c = 1)).length) ≠ 0 then some (coef.getD 0 0)
  else none

/-- Constant `alim_low = 0.025` from `trend_estimation.py` line 579. -/
def alim_low : ℚ := 0.025

/-- Constant `alim_high = 0.975` from `trend_estimation.py` line 580. -/
def alim_high : ℚ := 0.975

/-- The empirical CDF `N[k]` of `calc_trend` (`trend_estimation.py` lines
571-574): `N[k] = sum(count[:k] / N_input)` where `N_input = sum(count)`;
element-wise division then summation. -/
def cdfAt (count : List ℕ) (k : ℕ) : ℚ :=
  ∑ j ∈ Finset.range k, (count.getD j 0 : ℚ) / (count.sum : ℚ)

/-- The lower-bound scan of `calc_trend` (`trend_estimation.py` lines
581-583): for `n in range(nbins - 1)`, whenever
`N[n] < alim_low <= N[n+1]` the variable `temp_conf_int_low` is (re)assigned
to `0.5 * (bin_edges[n] + bin_edges[n+1])`; `none` models the variable
remaining unassigned. -/
def temp_conf_int_low (count : List ℕ) (edges : List ℚ) : Option ℚ :=
  (List.range (count.length - 1)).foldl
    (fun acc n =>
      if cdfAt count n < alim_low ∧ alim_low ≤ cdfAt count (n + 1) then
        some (0.5 * (edges.getD n 0 + edges.getD (n + 1) 0))
      else acc)
    none

/-- The upper-bound scan of `calc_trend` (`trend_estimation.py` lines
584-585): same loop with condition `N[n] <= alim_high < N[n+1]`. -/
def temp_conf_int_high (count : List ℕ) (edges : List ℚ) : Option ℚ :=
  (List.range (count.length - 1)).foldl
    (fun acc n =>
      if cdfAt count n ≤ alim_high ∧ alim_high < cdfAt count (n + 1) then
        some (0.5 * (edges.getD n 0 + edges.getD (n + 1) 0))
      else acc)
    none

/-- The confidence-interval half-width `temp_conf_int_95 = 0.5 *
(-temp_conf_int_low + temp_conf_int_high)` of `calc_trend`
(`trend_estimation.py` line 587).  If either scan left its variable
unassigned the Python line raises `NameError`; this is modelled by
`none`. -/
def temp_conf_int_95 (count : List ℕ) (edges : List ℚ) : Option ℚ :=
  match temp_conf_int_low count edges, temp_conf_int_high count edges with
  | some lo, some hi => some (0.5 * (-lo + hi))
  | _, _ => none

/-! Helper lemmas about the scanning loops of `calc_trend`. -/

/-- A fold of the shape used by the bound scans yields `some v` only from a
loop index satisfying the scan condition (or from its initial value). -/
theorem scan_foldl_some {α : Type} (p : ℕ → Prop) [DecidablePred p] (f : ℕ → α) :
    ∀ (l : List ℕ) (init : Option α) (v : α),
      l.foldl (fun acc n => if p n then some (f n) else acc) init = some v →
      (∃ n ∈ l, p n ∧ f n = v) ∨ init = some v := by
  intro l
  induction l with
  | nil => intro init v h; right; exact h
  | cons a t ih =>
    intro init v h
    simp only [List.foldl_cons] at h
    rcases ih _ v h with ⟨n, hn, hp, hf⟩ | hinit
    · exact Or.inl ⟨n, List.mem_cons_of_mem _ hn, hp, hf⟩
    · by_cases hpa : p a
      · rw [if_pos hpa] at hinit
        exact Or.inl ⟨a, List.mem_cons_self a t, hpa, (Option.some.inj hinit)⟩
      · rw [if_neg hpa] at hinit
        exact Or.inr hinit

/-- A fold of the shape used by the bound scans produces a value exactly when
some loop index satisfies the scan condition (or the initial value is one). -/
theorem scan_foldl_isSome {α : Type} (p : ℕ → Prop) [DecidablePred p] (f : ℕ → α) :
    ∀ (l : List ℕ) (init : Option α),
      (l.foldl (fun acc n => if p n then some (f n) else acc) init).isSome ↔
        (∃ n ∈ l, p n) ∨ init.isSome := by
  intro l
  induction l with
  | nil => intro init; simp
  | cons a t ih =>
    intro init
    simp only [List.foldl_cons]
    rw [ih]
    by_cases hpa : p a
    · simp [hpa]
    · simp [hpa]

/-- C4: in the empirical percentile extractor of `calc_trend`, the empirical
CDF value at bin `k` is the cumulative count fraction over the bins strictly
before `k` (the current bin's count excluded); each confidence bound, when
the corresponding scan assigns it, is the midpoint of the edges of a bin
pair straddling the target level (`0.025` for the lower, `0.975` for the
upper scan); and the reported half-width is half the difference between the
upper and the lower bound. -/
theorem calc_trend_percentile_extractor (count : List ℕ) (edges : List ℚ)
    (k : ℕ) (lo hi : ℚ)
    (hlo : temp_conf_int_low count edges = some lo)
    (hhi : temp_conf_int_high count edges = some hi) :
    cdfAt count k =
      (∑ j ∈ Finset.range k, (count.getD j 0 : ℚ)) / (count.sum : ℚ)
    ∧ (∃ n, n < count.length - 1 ∧ cdfAt count n < alim_low ∧
        alim_low ≤ cdfAt count (n + 1) ∧
        lo = 0.5 * (edges.getD n 0 + edges.getD (n + 1) 0))
    ∧ (∃ n, n < count.length - 1 ∧ cdfAt count n ≤ alim_high ∧
        alim_high < cdfAt count (n + 1) ∧
        hi = 0.5 * (edges.getD n 0 + edges.getD (n + 1) 0))
    ∧ temp_conf_int_95 count edges = some ((hi - lo) / 2) := by
  refine ⟨?_, ?_, ?_, ?_⟩
  · rw [cdfAt, Finset.sum_div]
  · have h := scan_foldl_some
      (fun n => cdfAt count n < alim_low ∧ alim_low ≤ cdfAt count (n + 1))
      (fun n => 0.5 * (edges.getD n 0 + edges.getD (n + 1) 0))
      (List.range (count.length - 1)) none lo hlo
    rcases h with ⟨n, hn, ⟨h1, h2⟩, hf⟩ | hbad
    · exact ⟨n, List.mem_range.mp hn, h1, h2, hf.symm⟩
    · exact absurd hbad (by simp)
  · have h := scan_foldl_some
      (fun n => cdfAt count n ≤ alim_high ∧ alim_high < cdfAt count (n + 1))
      (fun n => 0.5 * (edges.getD n 0 + edges.getD (n + 1) 0))
      (List.range (count.length - 1)) none hi hhi
    rcases h with ⟨n, hn, ⟨h1, h2⟩, hf⟩ | hbad
    · exact ⟨n, List.mem_range.mp hn, h1, h2, hf.symm⟩
    · exact absurd hbad (by simp)
  · have h : 0.5 * (-lo + hi) = (hi - lo) / 2 := by ring
    rw [temp_conf_int_95, hlo, hhi]
    exact congrArg some h

/-- Witness for C4 at the concrete histogram `count = [1, 38, 1, 0]`,
`edges = [0, 1, 2, 3, 4]` (40 simulated slopes): the scans assign
`lo = 1/2` and `hi = 5/2` and the half-width is `1`. -/
theorem calc_trend_percentile_extractor_witness :
    temp_conf_int_95 [1, 38, 1, 0] [0, 1, 2, 3, 4] = some ((5 / 2 - 1 / 2) / 2) :=
  (calc_trend_percentile_extractor [1, 38, 1, 0] [0, 1, 2, 3, 4] 2 (1 / 2) (5 / 2)
    (by norm_num [temp_conf_int_low, cdfAt, alim_low, List.range_succ,
      Finset.sum_range_succ])
    (by norm_num [temp_conf_int_high, cdfAt, alim_high, List.range_succ,
      Finset.sum_range_succ])).2.2.2

/-- C5: a confidence bound of `calc_trend` is assigned exactly when some
adjacent bin pair straddles its target level, and the half-width line
(which raises `NameError`, modelled by `none`, when a bound is missing)
produces a value exactly when both bounds were assigned. -/
theorem calc_trend_bound_unassigned (count : List ℕ) (edges : List ℚ) :
    ((temp_conf_int_low count edges).isSome ↔
      ∃ n, n < count.length - 1 ∧ cdfAt count n < alim_low ∧
        alim_low ≤ cdfAt count (n + 1))
    ∧ ((temp_conf_int_high count edges).isSome ↔
      ∃ n, n < count.length - 1 ∧ cdfAt count n ≤ alim_high ∧
        alim_high < cdfAt count (n + 1))
    ∧ ((temp_conf_int_95 count edges).isSome ↔
      (temp_conf_int_low count edges).isSome ∧
        (temp_conf_int_high count edges).isSome) := by
  refine ⟨?_, ?_, ?_⟩
  · rw [temp_conf_int_low, scan_foldl_isSome]
    simp [List.mem_range]
  · rw [temp_conf_int_high, scan_foldl_isSome]
    simp [List.mem_range]
  · rw [temp_conf_int_95]
    rcases temp_conf_int_low count edges with _ | lo <;>
      rcases temp_conf_int_high count edges with _ | hi <;> simp

/-- C7: the autocovariance at lag zero equals the sample variance
estimator: the sum of squared deviations from the mean divided by `N - 1`. -/
theorem C_zero_is_sample_variance (y : List ℚ) (h : 2 ≤ y.length) :
    C 0 y =
      (∑ i ∈ Finset.range y.length, (y.getD i 0 - mean y) ^ 2) /
        ((y.length : ℚ) - 1) := by
  rw [C]
  simp only [Nat.sub_zero, Nat.cast_zero, sub_zero, add_zero]
  have hs : (∑ i ∈ Finset.range y.length,
      (y.getD i 0 - mean y) * (y.getD i 0 - mean y)) =
      ∑ i ∈ Finset.range y.length, (y.getD i 0 - mean y) ^ 2 :=
    Finset.sum_congr rfl fun i _ => (pow_two (y.getD i 0 - mean y)).symm
  rw [hs, mul_one_div]

/-- Witness for C7 at the series `[1, 2, 3]`. -/
theorem C_zero_is_sample_variance_witness :
    2 ≤ ([1, 2, 3] : List ℚ).length ∧
      C 0 [1, 2, 3] =
        (∑ i ∈ Finset.range ([1, 2, 3] : List ℚ).length,
            (([1, 2, 3] : List ℚ).getD i 0 - mean [1, 2, 3]) ^ 2) /
          ((([1, 2, 3] : List ℚ).length : ℚ) - 1) :=
  ⟨by decide, C_zero_is_sample_variance [1, 2, 3] (by decide)⟩

/-- Summing a list after adding a constant to each element adds
`length * constant` to the sum. -/
theorem sum_map_add_const (y : List ℚ) (c : ℚ) :
    (y.map fun a => a + c).sum = y.sum + (y.length : ℚ) * c := by
  induction y with
  | nil => simp
  | cons a t ih =>
    simp only [List.map_cons, List.sum_cons, List.length_cons, ih]
    push_cast
    ring

/-- The mean shifts by `c` under an element-wise additive shift. -/
theorem mean_map_add (y : List ℚ) (c : ℚ) (hy : y ≠ []) :
    mean (y.map fun a => a + c) = mean y + c := by
  have hl : (y.length : ℚ) ≠ 0 :=
    Nat.cast_ne_zero.mpr fun h0 => hy (List.length_eq_zero.mp h0)
  rw [mean, mean, List.length_map, sum_map_add_const]
  field_simp
  ring

/-- The autocovariance at every lag is invariant under an additive shift of
the series: only deviations from the mean enter. -/
theorem C_map_add (k : ℕ) (y : List ℚ) (c : ℚ) (hy : y ≠ []) :
    C k (y.map fun a => a + c) = C k y := by
  rw [C, C, List.length_map, mean_map_add y c hy]
  congr 1
  refine Finset.sum_congr rfl fun i hi => ?_
  have hi1 : i < y.length - k := Finset.mem_range.mp hi
  have hiy : i < y.length := by omega
  have hiky : i + k < y.length := by omega
  rw [List.getD_eq_getElem _ _ (by simpa using hiy),
      List.getD_eq_getElem _ _ (by simpa using hiky),
      List.getD_eq_getElem _ _ hiy, List.getD_eq_getElem _ _ hiky,
      List.getElem_map, List.getElem_map]
  ring

/-- C8: the discrete integral timescale is invariant under an additive
shift of the series and scales linearly in the lag time step `dtau`. -/
theorem integral_timescale_shift_and_scale (dtau lam c : ℚ) (y : List ℚ)
    (m : ℕ) (hy : C 0 y ≠ 0) (hm : 2 ≤ m) (hd : 0 < dtau) (hl : 0 < lam) :
    integral_timescale_discrete dtau (y.map fun a => a + c) m =
      integral_timescale_discrete dtau y m
    ∧ integral_timescale_discrete (lam * dtau) y m =
      lam * integral_timescale_discrete dtau y m := by
  have hy0 : y ≠ [] := by
    intro h
    apply hy
    rw [h]
    simp [C]
  constructor
  · rw [integral_timescale_discrete, integral_timescale_discrete,
      C_map_add 0 y c hy0]
    congr 1
    refine Finset.sum_congr rfl fun i _ => ?_
    rw [C_map_add _ y c hy0, C_map_add _ y c hy0]
  · rw [integral_timescale_discrete, integral_timescale_discrete]
    have hsum : (∑ k ∈ Finset.range (m - 1),
        lam * dtau / 2 * (C (k + 1) y + C k y)) =
        lam * ∑ k ∈ Finset.range (m - 1), dtau / 2 * (C (k + 1) y + C k y) := by
      rw [Finset.mul_sum]
      exact Finset.sum_congr rfl fun i _ => by ring
    rw [hsum, mul_assoc]

/-- Witness for C8 at `y = [0, 1, 0]`, `dtau = 1`, `lam = 2`, `c = 3`,
`m = 2`. -/
theorem integral_timescale_shift_and_scale_witness :
    integral_timescale_discrete 1 (([0, 1, 0] : List ℚ).map fun a => a + 3) 2 =
      integral_timescale_discrete 1 [0, 1, 0] 2
    ∧ integral_timescale_discrete (2 * 1) [0, 1, 0] 2 =
      2 * integral_timescale_discrete 1 [0, 1, 0] 2 :=
  integral_timescale_shift_and_scale 1 2 3 [0, 1, 0] 2
    (by norm_num [C, mean, Finset.sum_range_succ]) (by norm_num)
    (by norm_num) (by norm_num)

/-- The median of a nonempty list whose elements are all `v` is `v`. -/
theorem median_of_const (l : List ℚ) (v : ℚ) (hne : l ≠ [])
    (hall : ∀ a ∈ l, a = v) : median l = v := by
  have hpos : 0 < l.length := List.length_pos.mpr hne
  have hlen : (List.insertionSort (· ≤ ·) l).length = l.length :=
    List.length_insertionSort _ _
  have hmem : ∀ a ∈ List.insertionSort (· ≤ ·) l, a = v := fun a ha =>
    hall a ((List.perm_insertionSort _ l).subset ha)
  have hlt : l.length / 2 < l.length := Nat.div_lt_self hpos (by norm_num)
  have hlt2 : l.length / 2 - 1 < l.length := by omega
  rw [median]
  split
  · rw [List.getD_eq_getElem _ _ (by rw [hlen]; exact hlt)]
    exact hmem _ (List.getElem_mem _)
  · rw [List.getD_eq_getElem _ _ (by rw [hlen]; exact hlt2),
        List.getD_eq_getElem _ _ (by rw [hlen]; exact hlt),
        hmem _ (List.getElem_mem _), hmem _ (List.getElem_mem _)]
    ring

/-- A finite pairwise slope between two noiseless points of the line
`y = a * x + b` equals `a`. -/
theorem finiteSlope_linear (a b xi xj s : ℚ)
    (h : finiteSlope [xi, a * xi + b] [xj, a * xj + b] = some s) : s = a := by
  rw [finiteSlope] at h
  simp only [List.getD_cons_zero, List.getD_cons_succ] at h
  by_cases hx : xi = xj
  · rw [if_pos hx] at h
    exact absurd h (by simp)
  · rw [if_neg hx] at h
    have hv := Option.some.inj h
    have hne : xi - xj ≠ 0 := sub_ne_zero.mpr hx
    rw [← hv, div_eq_iff hne]
    ring

/-- Row `i` of the noiseless linear design matrix. -/
theorem getD_map_row (a b : ℚ) (x : List ℚ) (i : ℕ) (hi : i < x.length) :
    (x.map fun t => [t, a * t + b]).getD i [] =
      [x.getD i 0, a * x.getD i 0 + b] := by
  rw [List.getD_eq_getElem _ _ (by simpa using hi), List.getElem_map,
      List.getD_eq_getElem _ _ hi]

/-- C9: on noiseless collinear data `y = a * x + b` with strictly increasing
predictor values, every finite pairwise slope equals `a`, and
`TheilSen_Cummins` returns slope exactly `a` and intercept exactly `b`. -/
theorem TheilSen_Cummins_exact_linear (a b : ℚ) (x : List ℚ)
    (h2 : 2 ≤ x.length) (hx : x.Pairwise (· < ·)) :
    (∀ ri ∈ x.map fun t => [t, a * t + b],
      ∀ rj ∈ x.map fun t => [t, a * t + b],
        ∀ s, finiteSlope ri rj = some s → s = a)
    ∧ TheilSen_Cummins (x.map fun t => [t, a * t + b]) =
        some (a, b, TheilSen_CC (x.map fun t => [t, a * t + b])) := by
  set data := x.map fun t => [t, a * t + b] with hdata
  have hlen : data.length = x.length := by rw [hdata, List.length_map]
  have hxne : x ≠ [] := by
    intro h
    rw [h] at h2
    simp at h2
  have hslope : ∀ ri ∈ data, ∀ rj ∈ data, ∀ s,
      finiteSlope ri rj = some s → s = a := by
    intro ri hri rj hrj s hs
    obtain ⟨ti, _, rfl⟩ := List.mem_map.mp hri
    obtain ⟨tj, _, rfl⟩ := List.mem_map.mp hrj
    exact finiteSlope_linear a b ti tj s hs
  have hmemD : ∀ i, i < data.length → data.getD i [] ∈ data := by
    intro i h
    rw [List.getD_eq_getElem _ _ h]
    exact List.getElem_mem _
  -- every element of the finite-slope list equals `a`
  have hsl : ∀ s ∈ TheilSen_slopes data, s = a := by
    intro s hsmem
    rw [TheilSen_slopes] at hsmem
    obtain ⟨row, hrow, hsrow⟩ := List.mem_flatten.mp hsmem
    obtain ⟨row0, hrow0, rfl⟩ := List.mem_map.mp hrow
    obtain ⟨o, ho, hid⟩ := List.mem_filterMap.mp hsrow
    rw [TheilSen_CC] at hrow0
    obtain ⟨i, hi, rfl⟩ := List.mem_map.mp hrow0
    obtain ⟨j, hj, hoent⟩ := List.mem_map.mp ho
    rw [← hoent] at hid
    by_cases hij : i ≤ j
    · rw [if_pos hij] at hid
      exact hslope _ (hmemD i (List.mem_range.mp hi)) _
        (hmemD j (List.mem_range.mp hj)) s hid
    · rw [if_neg hij] at hid
      exact absurd hid (by simp)
  -- the slope between the first two observations is finite and equals `a`
  have h01 : x.getD 0 0 < x.getD 1 0 := by
    have := (List.pairwise_iff_get.mp hx) ⟨0, by omega⟩ ⟨1, by omega⟩
      (by simp [Fin.mk_lt_mk])
    rw [List.getD_eq_getElem _ _ (by omega), List.getD_eq_getElem _ _ (by omega)]
    simpa [List.get_eq_getElem] using this
  have hentry : finiteSlope (data.getD 0 []) (data.getD 1 []) = some a := by
    rw [hdata, getD_map_row a b x 0 (by omega), getD_map_row a b x 1 (by omega),
      finiteSlope]
    simp only [List.getD_cons_zero, List.getD_cons_succ]
    rw [if_neg (ne_of_lt h01)]
    have hne : x.getD 0 0 - x.getD 1 0 ≠ 0 := sub_ne_zero.mpr (ne_of_lt h01)
    rw [Option.some.injEq, div_eq_iff hne]
    ring
  have hamem : a ∈ TheilSen_slopes data := by
    rw [TheilSen_slopes]
    refine List.mem_flatten.mpr ⟨((List.range data.length).map fun j =>
      if 0 ≤ j then finiteSlope (data.getD 0 []) (data.getD j []) else
        none).filterMap id, ?_, ?_⟩
    · refine List.mem_map.mpr ⟨(List.range data.length).map fun j =>
        if 0 ≤ j then finiteSlope (data.getD 0 []) (data.getD j []) else none,
        ?_, rfl⟩
      rw [TheilSen_CC]
      exact List.mem_map.mpr ⟨0, List.mem_range.mpr (by omega), rfl⟩
    · refine List.mem_filterMap.mpr ⟨some a, ?_, rfl⟩
      refine List.mem_map.mpr ⟨1, List.mem_range.mpr (by omega), ?_⟩
      rw [if_pos (by omega)]
      exact hentry
  have hm : TheilSen_m data = a :=
    median_of_const _ _ (List.ne_nil_of_mem hamem) hsl
  have hb : TheilSen_b data = b := by
    rw [TheilSen_b, hm]
    refine median_of_const _ _ ?_ ?_
    · simp [hdata, hxne]
    · intro z hz
      obtain ⟨r, hr, rfl⟩ := List.mem_map.mp hz
      obtain ⟨t, _, rfl⟩ := List.mem_map.mp hr
      simp only [List.getD_cons_zero, List.getD_cons_succ]
      ring
  have hhead : (data.headD []).length = 2 := by
    cases x with
    | nil => exact absurd rfl hxne
    | cons t ts => simp [hdata]
  refine ⟨hslope, ?_⟩
  rw [TheilSen_Cummins, if_neg (by omega), if_pos hhead, hm, hb]

/-- Witness for C9: the points `(0, 3)` and `(1, 5)` on the line
`y = 2 * x + 3`. -/
theorem TheilSen_Cummins_exact_linear_witness :
    (∀ ri ∈ ([0, 1] : List ℚ).map fun t => [t, 2 * t + 3],
      ∀ rj ∈ ([0, 1] : List ℚ).map fun t => [t, 2 * t + 3],
        ∀ s, finiteSlope ri rj = some s → s = 2)
    ∧ TheilSen_Cummins (([0, 1] : List ℚ).map fun t => [t, 2 * t + 3]) =
        some (2, 3, TheilSen_CC (([0, 1] : List ℚ).map fun t => [t, 2 * t + 3])) :=
  TheilSen_Cummins_exact_linear 2 3 [0, 1] (by decide) (by decide)

/-- C10: with at least 2 rows but a column count other than 2,
`TheilSen_Cummins` returns `None` without printing its size diagnostic. -/
theorem TheilSen_Cummins_wrong_columns (data : List (List ℚ))
    (h2 : 2 ≤ data.length) (hD : (data.headD []).length ≠ 2) :
    TheilSen_Cummins data = none ∧ TheilSen_Cummins_size_msg data = false := by
  constructor
  · rw [TheilSen_Cummins, if_neg (by omega), if_neg hD]
  · rw [TheilSen_Cummins_size_msg]
    simp
    omega

/-- Witness for C10 at a 2×3 matrix. -/
theorem TheilSen_Cummins_wrong_columns_witness :
    TheilSen_Cummins [[1, 2, 3], [4, 5, 6]] = none ∧
      TheilSen_Cummins_size_msg [[1, 2, 3], [4, 5, 6]] = false :=
  TheilSen_Cummins_wrong_columns [[1, 2, 3], [4, 5, 6]] (by decide) (by decide)

/-- C3 (what the code actually does): a fitted coefficient vector with two
entries passes the `len(res.coef_ == 1)` truthiness test, so the trial
records the first coefficient instead of aborting the run. -/
theorem senFlag1_multi_coef_recorded :
    ([(1 : ℚ) / 2, 3 / 10].length = 2) ∧
      senFlag1Record [(1 : ℚ) / 2, 3 / 10] = some (1 / 2) := by
  constructor
  · rfl
  · rw [senFlag1Record, if_pos (by simp)]
    simp

noncomputable section

/-- Function `effective_sample_size` from `trend_estimation.py` lines 80-90:
`N * dt / T`. -/
def effective_sample_size (N dt T : ℝ) : ℝ := N * dt / T

/-- Function `conf_limit` from `trend_estimation.py` lines 135-150, with the
external `scipy.stats.t.ppf` quantile function taken as a parameter
`tppf` (first argument the quantile, second the degrees of freedom):
`deg_freedom = N_star - 2`, `alpha = 0.05`, and the function returns
`(s_eta * t.ppf(1 - alpha / 2, df=deg_freedom)) / ((N_star - 1) ** .5 * s_x)`. -/
def conf_limit (tppf : ℝ → ℝ → ℝ) (s_eta N_star s_x : ℝ) : ℝ :=
  s_eta * tppf (1 - 0.05 / 2) (N_star - 2) / (Real.sqrt (N_star - 1) * s_x)

/-- The confidence-limit slice of `main_te` (`trend_estimation.py` lines
232-253): `ESS = effective_sample_size(NN, time_step, it)`, then
`N_star = ESS - 2`, then `CI_effective = conf_limit(SEE, N_star, SDX)`.
The standard error of the estimate `SEE`, the effective sample size `ESS`
and the predictor standard deviation `SDX` of the station series are taken
as inputs. -/
def main_te_CI (tppf : ℝ → ℝ → ℝ) (SEE ESS SDX : ℝ) : ℝ :=
  conf_limit tppf SEE (ESS - 2) SDX

/-- Modelled from the spec for comparison with the code (refinement side):
the claimed confidence limit
`CI = s_eta * t_{0.975, df = N_star - 2} / (sqrt(N_star - 1) * s_x)`
where `N_star` is the effective sample size `N * dt / T` itself. -/
def claimed_conf_limit_spec (tppf : ℝ → ℝ → ℝ) (s_eta N_star s_x : ℝ) : ℝ :=
  s_eta * tppf 0.975 (N_star - 2) / (Real.sqrt (N_star - 1) * s_x)

/-- A concrete stand-in quantile function (returns its df argument), used
to exhibit the degrees-of-freedom shift at a concrete input. -/
def tppf_lin : ℝ → ℝ → ℝ := fun _ df => df

/-- C1 (what the code actually computes): for every station series the
analytic pipeline evaluates the Student-t quantile at `N* - 4` degrees of
freedom and divides by `sqrt(N* - 3) * s_x`, where `N*` is the effective
sample size `N * dt / T` — not at `N* - 2` and `sqrt(N* - 1)` as claimed —
because `main_te` passes `N_star = ESS - 2` into `conf_limit`, which
subtracts 2 again; at `N* = 6`, `s_eta = s_x = 1` the two formulas differ. -/
theorem conf_limit_df_shift :
    (∀ (tppf : ℝ → ℝ → ℝ) (SEE N dt T SDX : ℝ),
      main_te_CI tppf SEE (effective_sample_size N dt T) SDX =
        SEE * tppf 0.975 (effective_sample_size N dt T - 4) /
          (Real.sqrt (effective_sample_size N dt T - 3) * SDX))
    ∧ main_te_CI tppf_lin 1 (effective_sample_size 6 1 1) 1 ≠
        claimed_conf_limit_spec tppf_lin 1 (effective_sample_size 6 1 1) 1 := by
  constructor
  · intro tppf SEE N dt T SDX
    have h1 : (1 : ℝ) - 0.05 / 2 = 0.975 := by norm_num
    have h2 : effective_sample_size N dt T - 2 - 2 =
        effective_sample_size N dt T - 4 := by ring
    have h3 : effective_sample_size N dt T - 2 - 1 =
        effective_sample_size N dt T - 3 := by ring
    rw [main_te_CI, conf_limit, h1, h2, h3]
  · have hE : effective_sample_size 6 1 1 = 6 := by
      rw [effective_sample_size]
      norm_num
    rw [hE]
    have hL : main_te_CI tppf_lin 1 6 1 = 2 / Real.sqrt 3 := by
      rw [main_te_CI, conf_limit, tppf_lin]
      norm_num
    have hR : claimed_conf_limit_spec tppf_lin 1 6 1 = 4 / Real.sqrt 5 := by
      rw [claimed_conf_limit_spec, tppf_lin]
      norm_num
    rw [hL, hR]
    intro heq
    have h3pos : (0 : ℝ) < Real.sqrt 3 := Real.sqrt_pos.mpr (by norm_num)
    have h5pos : (0 : ℝ) < Real.sqrt 5 := Real.sqrt_pos.mpr (by norm_num)
    have h3s : Real.sqrt 3 ^ 2 = 3 := Real.sq_sqrt (by norm_num)
    have h5s : Real.sqrt 5 ^ 2 = 5 := Real.sq_sqrt (by norm_num)
    rw [div_eq_div_iff h3pos.ne' h5pos.ne'] at heq
    have hsq := congrArg (fun z : ℝ => z ^ 2) heq
    simp only at hsq
    rw [mul_pow, mul_pow, h3s, h5s] at hsq
    norm_num at hsq

end

noncomputable section

/-- The primitive `N`-th root of unity `exp(2 pi i / N)` underlying the
discrete Fourier transform. -/
def zetaN (N : ℕ) : ℂ := Complex.exp (2 * Real.pi * Complex.I / N)

/-- Discrete Fourier transform in the `scipy.fft.fft` convention used by
`monte_carlo_trend`: `X_k = sum_j x_j * exp(-2 pi i j k / N)`. -/
def fftC (N : ℕ) (x : Fin N → ℂ) (k : Fin N) : ℂ :=
  ∑ j : Fin N, x j * zetaN N ^ (-((j.val : ℤ) * (k.val : ℤ)))

/-- Inverse discrete Fourier transform in the `scipy.fft.ifft` convention:
`x_j = (1/N) * sum_k X_k * exp(2 pi i j k / N)`. -/
def ifftC (N : ℕ) (X : Fin N → ℂ) (j : Fin N) : ℂ :=
  (∑ k : Fin N, X k * zetaN N ^ ((j.val : ℤ) * (k.val : ℤ))) / N

theorem zetaN_ne_zero (N : ℕ) : zetaN N ≠ 0 := Complex.exp_ne_zero _

theorem zetaN_zpow (N : ℕ) (m : ℤ) :
    zetaN N ^ m = Complex.exp (2 * Real.pi * Complex.I * m / N) := by
  rw [zetaN, ← Complex.exp_int_mul]
  congr 1
  ring

theorem zetaN_pow_card (N : ℕ) (hN : N ≠ 0) : zetaN N ^ (N : ℤ) = 1 := by
  have hN' : (N : ℂ) ≠ 0 := Nat.cast_ne_zero.mpr hN
  rw [zetaN_zpow]
  push_cast
  rw [mul_div_assoc, div_self hN', mul_one, Complex.exp_two_pi_mul_I]

theorem zetaN_zpow_eq_one_iff (N : ℕ) (hN : N ≠ 0) (c : ℤ) :
    zetaN N ^ c = 1 ↔ (N : ℤ) ∣ c := by
  have hN' : (N : ℂ) ≠ 0 := Nat.cast_ne_zero.mpr hN
  have hpi : (Real.pi : ℂ) ≠ 0 := Complex.ofReal_ne_zero.mpr Real.pi_ne_zero
  have h2 : (2 : ℂ) * Real.pi * Complex.I ≠ 0 := by
    simp [hpi, Complex.I_ne_zero]
  rw [zetaN_zpow, Complex.exp_eq_one_iff]
  constructor
  · rintro ⟨n, hn⟩
    refine ⟨n, ?_⟩
    rw [div_eq_iff hN'] at hn
    have hc : (c : ℂ) = (N : ℂ) * n := by
      apply mul_left_cancel₀ h2
      rw [hn]
      ring
    exact_mod_cast hc
  · rintro ⟨d, rfl⟩
    refine ⟨d, ?_⟩
    push_cast
    rw [div_eq_iff hN']
    ring

/-- Orthogonality of the DFT characters: the geometric sum of
`zetaN N ^ (c * j)` over `j < N` is `N` when `N` divides `c` and `0`
otherwise. -/
theorem sum_zetaN_pow (N : ℕ) (hN : N ≠ 0) (c : ℤ) :
    ∑ j : Fin N, zetaN N ^ (c * (j.val : ℤ)) =
      if (N : ℤ) ∣ c then (N : ℂ) else 0 := by
  have base : ∀ j : Fin N, zetaN N ^ (c * (j.val : ℤ)) =
      (zetaN N ^ c) ^ (j.val : ℕ) := by
    intro j
    rw [← zpow_natCast (zetaN N ^ c) j.val, ← zpow_mul]
  rw [Finset.sum_congr rfl fun j _ => base j,
    Fin.sum_univ_eq_sum_range (fun i => (zetaN N ^ c) ^ i) N]
  by_cases hdvd : (N : ℤ) ∣ c
  · rw [if_pos hdvd, (zetaN_zpow_eq_one_iff N hN c).mpr hdvd]
    simp
  · rw [if_neg hdvd]
    have h1 : zetaN N ^ c ≠ 1 := fun h => hdvd ((zetaN_zpow_eq_one_iff N hN c).mp h)
    rw [geom_sum_eq h1]
    have hNpow : (zetaN N ^ c) ^ N = 1 := by
      rw [← zpow_natCast (zetaN N ^ c) N, ← zpow_mul, mul_comm, zpow_mul,
        zetaN_pow_card N hN, one_zpow]
    rw [hNpow, sub_self, zero_div]

/-- Fourier inversion: the forward DFT of the inverse DFT is the
identity. -/
theorem fftC_ifftC (N : ℕ) (hN : N ≠ 0) (Z : Fin N → ℂ) (k : Fin N) :
    fftC N (ifftC N Z) k = Z k := by
  have hN' : (N : ℂ) ≠ 0 := Nat.cast_ne_zero.mpr hN
  rw [fftC]
  have step : ∀ j : Fin N,
      ifftC N Z j * zetaN N ^ (-((j.val : ℤ) * (k.val : ℤ))) =
      (∑ m : Fin N,
        Z m * zetaN N ^ (((m.val : ℤ) - (k.val : ℤ)) * (j.val : ℤ))) / N := by
    intro j
    rw [ifftC, div_mul_eq_mul_div, Finset.sum_mul]
    congr 1
    refine Finset.sum_congr rfl fun m _ => ?_
    rw [mul_assoc, ← zpow_add₀ (zetaN_ne_zero N)]
    congr 1
    ring_nf
  rw [Finset.sum_congr rfl fun j _ => step j, ← Finset.sum_div, Finset.sum_comm]
  have inner : ∀ m : Fin N,
      (∑ j : Fin N,
        Z m * zetaN N ^ (((m.val : ℤ) - (k.val : ℤ)) * (j.val : ℤ))) =
      Z m * (if (N : ℤ) ∣ ((m.val : ℤ) - (k.val : ℤ)) then (N : ℂ) else 0) := by
    intro m
    rw [← Finset.mul_sum, sum_zetaN_pow N hN]
  rw [Finset.sum_congr rfl fun m _ => inner m]
  have hsel : ∀ m : Fin N,
      Z m * (if (N : ℤ) ∣ ((m.val : ℤ) - (k.val : ℤ)) then (N : ℂ) else 0) =
      if m = k then Z m * N else 0 := by
    intro m
    have hm := m.isLt
    have hk := k.isLt
    by_cases h : m = k
    · subst h
      rw [if_pos rfl, if_pos (by simp)]
    · have hdvd : ¬ (N : ℤ) ∣ ((m.val : ℤ) - (k.val : ℤ)) := by
        intro hdvd
        have hb : |(m.val : ℤ) - (k.val : ℤ)| < N := by
          rw [abs_lt]
          omega
        have h0 : (m.val : ℤ) - (k.val : ℤ) = 0 :=
          Int.eq_zero_of_abs_lt_dvd hdvd hb
        exact h (Fin.ext (by omega))
      rw [if_neg hdvd, if_neg h, mul_zero]
  rw [Finset.sum_congr rfl fun m _ => hsel m,
    Finset.sum_ite_eq' Finset.univ k fun m => Z m * N]
  rw [if_pos (Finset.mem_univ k), mul_div_assoc, div_self hN', mul_one]

/-- In `Fin N`, the integer sum of two indices is divisible by `N` exactly
when the first is the additive inverse of the second. -/
theorem dvd_val_add_iff_neg (N : ℕ) (hN : N ≠ 0) (m k : Fin N) :
    ((N : ℤ) ∣ ((m.val : ℤ) + (k.val : ℤ))) ↔ m = -k := by
  have hm := m.isLt
  have hk := k.isLt
  have hneg : ((-k : Fin N) : ℕ) = (N - k.val) % N := Fin.coe_neg k
  have hcast : ((m.val : ℤ) + (k.val : ℤ)) = ((m.val + k.val : ℕ) : ℤ) := by
    push_cast
    ring
  rw [hcast, Int.natCast_dvd_natCast]
  constructor
  · intro hdvd
    obtain ⟨e, he⟩ := hdvd
    have he2 : e < 2 := by
      by_contra hge
      have : 2 * N ≤ N * e := by
        calc 2 * N = N * 2 := by ring
        _ ≤ N * e := Nat.mul_le_mul_left N (by omega)
      omega
    apply Fin.ext
    rw [hneg]
    match e, he2 with
    | 0, _ =>
      have hk0 : k.val = 0 := by omega
      have hm0 : m.val = 0 := by omega
      rw [hk0, hm0, Nat.sub_zero, Nat.mod_self]
    | 1, _ =>
      have hsum : m.val + k.val = N := by omega
      have hkpos : 0 < k.val := by omega
      rw [Nat.mod_eq_of_lt (by omega)]
      omega
  · intro h
    rw [h, hneg]
    rcases Nat.eq_zero_or_pos k.val with hk0 | hkpos
    · rw [hk0, Nat.sub_zero, Nat.mod_self]
      simp
    · rw [Nat.mod_eq_of_lt (by omega)]
      have hsum : N - k.val + k.val = N := by omega
      rw [hsum]

/-- The complex conjugate of the DFT root is its inverse. -/
theorem conj_zetaN (N : ℕ) : starRingEnd ℂ (zetaN N) = (zetaN N)⁻¹ := by
  rw [zetaN, ← Complex.exp_conj, ← Complex.exp_neg]
  congr 1
  simp only [map_div₀, map_mul, Complex.conj_I, Complex.conj_ofReal,
    map_ofNat, map_natCast]
  ring

theorem conj_zetaN_zpow (N : ℕ) (t : ℤ) :
    starRingEnd ℂ (zetaN N ^ t) = zetaN N ^ (-t) := by
  rw [map_zpow₀, conj_zetaN, inv_zpow, ← zpow_neg]

/-- The forward DFT of the complex conjugate of the inverse DFT evaluates to
the conjugated spectrum at the negated frequency. -/
theorem fftC_conj_ifftC (N : ℕ) (hN : N ≠ 0) (Z : Fin N → ℂ) (k : Fin N) :
    fftC N (fun j => starRingEnd ℂ (ifftC N Z j)) k =
      starRingEnd ℂ (Z (-k)) := by
  have hN' : (N : ℂ) ≠ 0 := Nat.cast_ne_zero.mpr hN
  rw [fftC]
  have step : ∀ j : Fin N,
      starRingEnd ℂ (ifftC N Z j) * zetaN N ^ (-((j.val : ℤ) * (k.val : ℤ))) =
      (∑ m : Fin N, starRingEnd ℂ (Z m) *
        zetaN N ^ ((-((m.val : ℤ) + (k.val : ℤ))) * (j.val : ℤ))) / N := by
    intro j
    rw [ifftC, map_div₀, map_natCast, map_sum, div_mul_eq_mul_div,
      Finset.sum_mul]
    congr 1
    refine Finset.sum_congr rfl fun m _ => ?_
    rw [map_mul, conj_zetaN_zpow, mul_assoc, ← zpow_add₀ (zetaN_ne_zero N)]
    congr 1
    ring_nf
  rw [Finset.sum_congr rfl fun j _ => step j, ← Finset.sum_div, Finset.sum_comm]
  have inner : ∀ m : Fin N,
      (∑ j : Fin N, starRingEnd ℂ (Z m) *
        zetaN N ^ ((-((m.val : ℤ) + (k.val : ℤ))) * (j.val : ℤ))) =
      starRingEnd ℂ (Z m) *
        (if (N : ℤ) ∣ (-((m.val : ℤ) + (k.val : ℤ))) then (N : ℂ) else 0) := by
    intro m
    rw [← Finset.mul_sum, sum_zetaN_pow N hN]
  rw [Finset.sum_congr rfl fun m _ => inner m]
  have hsel : ∀ m : Fin N,
      starRingEnd ℂ (Z m) *
        (if (N : ℤ) ∣ (-((m.val : ℤ) + (k.val : ℤ))) then (N : ℂ) else 0) =
      if m = -k then starRingEnd ℂ (Z m) * N else 0 := by
    intro m
    have hiff : ((N : ℤ) ∣ (-((m.val : ℤ) + (k.val : ℤ)))) ↔ m = -k := by
      rw [Int.dvd_neg]
      exact dvd_val_add_iff_neg N hN m k
    by_cases h : m = -k
    · rw [if_pos (hiff.mpr h), if_pos h]
    · rw [if_neg (fun hh => h (hiff.mp hh)), if_neg h, mul_zero]
  rw [Finset.sum_congr rfl fun m _ => hsel m,
    Finset.sum_ite_eq' Finset.univ (-k) fun m => starRingEnd ℂ (Z m) * N]
  rw [if_pos (Finset.mem_univ (-k)), mul_div_assoc, div_self hN', mul_one]

theorem fftC_add (N : ℕ) (x y : Fin N → ℂ) (k : Fin N) :
    fftC N (fun j => x j + y j) k = fftC N x k + fftC N y k := by
  rw [fftC, fftC, fftC, ← Finset.sum_add_distrib]
  exact Finset.sum_congr rfl fun j _ => by ring

theorem fftC_smul (N : ℕ) (c : ℂ) (x : Fin N → ℂ) (k : Fin N) :
    fftC N (fun j => c * x j) k = c * fftC N x k := by
  rw [fftC, fftC, Finset.mul_sum]
  exact Finset.sum_congr rfl fun j _ => by ring

/-- Taking the real part before the forward DFT symmetrises the spectrum:
the result at frequency `k` is the average of the original spectrum at `k`
and the conjugated spectrum at `-k`. -/
theorem fftC_re_ifftC (N : ℕ) (hN : N ≠ 0) (Z : Fin N → ℂ) (k : Fin N) :
    fftC N (fun j => ((ifftC N Z j).re : ℂ)) k =
      (Z k + starRingEnd ℂ (Z (-k))) / 2 := by
  have hfun : (fun j => ((ifftC N Z j).re : ℂ)) =
      fun j => (1 / 2 : ℂ) *
        (ifftC N Z j + starRingEnd ℂ (ifftC N Z j)) := by
    funext j
    rw [Complex.re_eq_add_conj]
    ring
  rw [hfun, fftC_smul N (1 / 2)
      (fun j => ifftC N Z j + starRingEnd ℂ (ifftC N Z j)) k,
    fftC_add N (fun j => ifftC N Z j) (fun j => starRingEnd ℂ (ifftC N Z j)) k,
    fftC_ifftC N hN, fftC_conj_ifftC N hN]
  ring

/-- Spectrum magnitude `data_mag = abs(fft(data_record))` from `monte_carlo_trend`
(`trend_estimation.py` line 408). -/
def data_mag (N : ℕ) (y : Fin N → ℝ) (k : Fin N) : ℝ :=
  Complex.abs (fftC N (fun j => (y j : ℂ)) k)

/-- Synthetic spectrum `dummy_fft = data_mag * np.exp(1j * ph_ang)` from `monte_carlo_trend`
(`trend_estimation.py` line 420), for a phase-angle vector `ph_ang`. -/
def dummy_fft (N : ℕ) (y ph_ang : Fin N → ℝ) (k : Fin N) : ℂ :=
  (data_mag N y k : ℂ) * Complex.exp (Complex.I * (ph_ang k : ℂ))

/-- Surrogate series `dummy_ts = np.sqrt(2) * np.real(ifft(dummy_fft))` from
`monte_carlo_trend` (`trend_estimation.py` line 423): the synthetic
(surrogate) time series. -/
def dummy_ts (N : ℕ) (y ph_ang : Fin N → ℝ) (j : Fin N) : ℝ :=
  Real.sqrt 2 * (ifftC N (dummy_fft N y ph_ang) j).re

/-- C2 (amended): the DFT of a surrogate at frequency `k` is `sqrt 2 / 2`
times the sum of the synthetic spectrum at `k` and its conjugate at `-k`,
so its amplitude spectrum is `sqrt 2 / 2` times the amplitude of that
symmetrised combination — not the amplitude spectrum of the input. -/
theorem surrogate_spectrum (N : ℕ) (hN : N ≠ 0) (y ph_ang : Fin N → ℝ)
    (k : Fin N) :
    fftC N (fun j => ((dummy_ts N y ph_ang j : ℝ) : ℂ)) k =
      (Real.sqrt 2 : ℂ) * (dummy_fft N y ph_ang k +
        starRingEnd ℂ (dummy_fft N y ph_ang (-k))) / 2
    ∧ Complex.abs (fftC N (fun j => ((dummy_ts N y ph_ang j : ℝ) : ℂ)) k) =
      Real.sqrt 2 * Complex.abs (dummy_fft N y ph_ang k +
        starRingEnd ℂ (dummy_fft N y ph_ang (-k))) / 2 := by
  have hfun : (fun j => ((dummy_ts N y ph_ang j : ℝ) : ℂ)) =
      fun j => (Real.sqrt 2 : ℂ) *
        ((ifftC N (dummy_fft N y ph_ang) j).re : ℂ) := by
    funext j
    rw [dummy_ts, Complex.ofReal_mul]
  have h1 : fftC N (fun j => ((dummy_ts N y ph_ang j : ℝ) : ℂ)) k =
      (Real.sqrt 2 : ℂ) * ((dummy_fft N y ph_ang k +
        starRingEnd ℂ (dummy_fft N y ph_ang (-k))) / 2) := by
    rw [hfun, fftC_smul N (Real.sqrt 2 : ℂ)
        (fun j => ((ifftC N (dummy_fft N y ph_ang) j).re : ℂ)) k,
      fftC_re_ifftC N hN]
  constructor
  · rw [h1]
    ring
  · rw [h1, map_mul, map_div₀, Complex.abs_ofReal,
      abs_of_nonneg (Real.sqrt_nonneg 2), Complex.abs_two,
      mul_div_assoc]

/-- Witness for C2's amended theorem at `N = 1`, `y = [1]`, `ph_ang = [0]`,
`k = 0`. -/
theorem surrogate_spectrum_witness :
    fftC 1 (fun j => ((dummy_ts 1 (fun _ => 1) (fun _ => 0) j : ℝ) : ℂ)) 0 =
      (Real.sqrt 2 : ℂ) * (dummy_fft 1 (fun _ => 1) (fun _ => 0) 0 +
        starRingEnd ℂ (dummy_fft 1 (fun _ => 1) (fun _ => 0) (-0))) / 2 :=
  (surrogate_spectrum 1 (by norm_num) (fun _ => 1) (fun _ => 0) 0).1

/-- Counterexample to C2 as stated: at `N = 1`, residual `y = [1]` and
phase vector `ph_ang = [0]` the surrogate is `[sqrt 2]`, whose amplitude
spectrum `[sqrt 2]` differs from the residual's amplitude spectrum `[1]`. -/
theorem surrogate_amplitude_not_preserved :
    Complex.abs (fftC 1
      (fun j => ((dummy_ts 1 (fun _ => 1) (fun _ => 0) j : ℝ) : ℂ)) 0) ≠
      data_mag 1 (fun _ => 1) 0 := by
  have hfft1 : ∀ x : Fin 1 → ℂ, fftC 1 x 0 = x 0 := by
    intro x
    rw [fftC]
    simp
  have hmag : data_mag 1 (fun _ => (1 : ℝ)) 0 = 1 := by
    rw [data_mag, hfft1]
    simp
  have hdf : dummy_fft 1 (fun _ => (1 : ℝ)) (fun _ => (0 : ℝ)) 0 = 1 := by
    rw [dummy_fft, hmag]
    simp
  have hifft : ifftC 1 (dummy_fft 1 (fun _ => (1 : ℝ)) (fun _ => (0 : ℝ))) 0 = 1 := by
    rw [ifftC]
    simp only [Fin.sum_univ_one, hdf]
    simp
  have hts : dummy_ts 1 (fun _ => (1 : ℝ)) (fun _ => (0 : ℝ)) 0 = Real.sqrt 2 := by
    rw [dummy_ts, hifft]
    simp
  rw [hfft1, hts, hmag, Complex.abs_ofReal,
    abs_of_nonneg (Real.sqrt_nonneg 2)]
  intro h
  have h2 := Real.sqrt_eq_one.mp h
  norm_num at h2

/-- The surrogate series of Monte Carlo trial `t` (`trend_estimation.py`
lines 412-423): the generator state is reset to `seedState (42 + t)`
(`np.random.seed(42 + nsim)`), `npts` uniform draws are taken, scaled by
`2 * pi` into phase angles, and the surrogate is built from them.  The
parameter `sample` models `np.random.random_sample(npts)` together with
the advanced generator state. -/
def trial_ts (σ : Type) (npts : ℕ) (seedState : ℕ → σ)
    (sample : σ → (Fin npts → ℝ) × σ) (y : Fin npts → ℝ) (t : ℕ) :
    Fin npts → ℝ :=
  dummy_ts npts y fun i => 2 * Real.pi * (sample (seedState (42 + t))).1 i

/-- The per-trial slope: the backend fit of trial `t`'s surrogate.  `none`
models the abort path of the `sen_flag == 1` branch. -/
def trial_slope (σ : Type) (npts : ℕ) (seedState : ℕ → σ)
    (sample : σ → (Fin npts → ℝ) × σ) (fit : (Fin npts → ℝ) → Option ℝ)
    (y : Fin npts → ℝ) (t : ℕ) : Option ℝ :=
  fit (trial_ts σ npts seedState sample y t)

/-- The simulation loop of `monte_carlo_trend` (`trend_estimation.py`
lines 412-463): `cnt` trials remain, the next trial index is `t`, the
generator state is `s`, and the accumulator holds the simulated trends,
the autocovariance rows and the running `mean_spec` sum.  Each iteration
re-seeds the generator, builds the surrogate, accumulates
`abs(fft(dummy_ts)) ** 2 / npts` into `mean_spec`, fits the trend (any
backend failure aborts the whole run), and appends the `acovf` row of
`maxlag + 1` lags. -/
def mc_loop (σ : Type) (npts : ℕ) (seedState : ℕ → σ)
    (sample : σ → (Fin npts → ℝ) × σ) (fit : (Fin npts → ℝ) → Option ℝ)
    (acovf : (Fin npts → ℝ) → ℕ → ℝ) (maxlag : ℕ) (y : Fin npts → ℝ) :
    ℕ → ℕ → σ → List ℝ × List (List ℝ) × (Fin npts → ℝ) →
      Option (List ℝ × List (List ℝ) × (Fin npts → ℝ))
  | 0, _, _, acc => some acc
  | cnt + 1, t, _, acc =>
      match fit (trial_ts σ npts seedState sample y t) with
      | none => none
      | some slope =>
          mc_loop σ npts seedState sample fit acovf maxlag y cnt (t + 1)
            (sample (seedState (42 + t))).2
            (acc.1 ++ [slope],
             acc.2.1 ++
               [(List.range (maxlag + 1)).map
                 (acovf (trial_ts σ npts seedState sample y t))],
             fun k => acc.2.2 k +
               Complex.abs (fftC npts
                 (fun j => (trial_ts σ npts seedState sample y t j : ℂ)) k) ^ 2 /
                 npts)

/-- Model of `np.mean` of a matrix given as a list of rows: total sum over total
entry count (the source flattens `siml_acvf` into one scalar). -/
def np_mean_mat (m : List (List ℝ)) : ℝ :=
  (m.map List.sum).sum / ((m.map List.length).sum : ℝ)

/-- Model of `np.std` of a matrix given as a list of rows: the square root of the
mean squared deviation from the matrix mean. -/
def np_std_mat (m : List (List ℝ)) : ℝ :=
  Real.sqrt
    ((m.map fun r => (r.map fun v => (v - np_mean_mat m) ^ 2).sum).sum /
      ((m.map List.length).sum : ℝ))

/-- Function `monte_carlo_trend` (`trend_estimation.py` lines 370-472),
parameterised over the NumPy generator (`seedState`, `sample`), the
regression backend `fit` (the three `sen_flag` branches, with `none` the
abort path) and the external `statsmodels` `acovf`.  `s0` is the generator
state at entry.  Returns the simulated trends, the scalar mean and
standard deviation of the accumulated autocovariance matrix, and the
averaged power spectrum. -/
def monte_carlo_trend (σ : Type) (npts : ℕ) (seedState : ℕ → σ)
    (sample : σ → (Fin npts → ℝ) × σ) (fit : (Fin npts → ℝ) → Option ℝ)
    (acovf : (Fin npts → ℝ) → ℕ → ℝ) (max_siml maxlag : ℕ)
    (y : Fin npts → ℝ) (s0 : σ) :
    Option (List ℝ × ℝ × ℝ × (Fin npts → ℝ)) :=
  match mc_loop σ npts seedState sample fit acovf maxlag y max_siml 0 s0
      ([], [], fun _ => 0) with
  | none => none
  | some acc =>
      some (acc.1, np_mean_mat acc.2.1, np_std_mat acc.2.1,
        fun k => acc.2.2 k / max_siml)

/-- The spec-side description of the simulated-slope array: trial `t`'s
slope is a pure function of `42 + t` and the inputs, trials taken in
order, any failure aborting the run. -/
def trial_slopes (σ : Type) (npts : ℕ) (seedState : ℕ → σ)
    (sample : σ → (Fin npts → ℝ) × σ) (fit : (Fin npts → ℝ) → Option ℝ)
    (y : Fin npts → ℝ) : ℕ → ℕ → Option (List ℝ)
  | 0, _ => some []
  | cnt + 1, t =>
      match trial_slope σ npts seedState sample fit y t with
      | none => none
      | some v =>
          (trial_slopes σ npts seedState sample fit y cnt (t + 1)).map (v :: ·)

/-- The loop of `monte_carlo_trend` does not depend on the incoming
generator state: every iteration re-seeds before drawing. -/
theorem mc_loop_state_independent (σ : Type) (npts : ℕ) (seedState : ℕ → σ)
    (sample : σ → (Fin npts → ℝ) × σ) (fit : (Fin npts → ℝ) → Option ℝ)
    (acovf : (Fin npts → ℝ) → ℕ → ℝ) (maxlag : ℕ) (y : Fin npts → ℝ)
    (cnt t : ℕ) (s₁ s₂ : σ)
    (acc : List ℝ × List (List ℝ) × (Fin npts → ℝ)) :
    mc_loop σ npts seedState sample fit acovf maxlag y cnt t s₁ acc =
      mc_loop σ npts seedState sample fit acovf maxlag y cnt t s₂ acc := by
  cases cnt with
  | zero => rfl
  | succ n => rfl

/-- The trend component accumulated by the loop is the spec-side
per-trial-seeded slope sequence. -/
theorem mc_loop_trends (σ : Type) (npts : ℕ) (seedState : ℕ → σ)
    (sample : σ → (Fin npts → ℝ) × σ) (fit : (Fin npts → ℝ) → Option ℝ)
    (acovf : (Fin npts → ℝ) → ℕ → ℝ) (maxlag : ℕ) (y : Fin npts → ℝ) :
    ∀ (cnt t : ℕ) (s : σ) (tr : List ℝ) (rows : List (List ℝ))
      (spec : Fin npts → ℝ),
      (mc_loop σ npts seedState sample fit acovf maxlag y cnt t s
        (tr, rows, spec)).map (fun r => r.1) =
      (trial_slopes σ npts seedState sample fit y cnt t).map
        (fun l => tr ++ l) := by
  intro cnt
  induction cnt with
  | zero =>
    intro t s tr rows spec
    simp [mc_loop, trial_slopes]
  | succ n ih =>
    intro t s tr rows spec
    rw [mc_loop, trial_slopes, trial_slope]
    cases hfit : fit (trial_ts σ npts seedState sample y t) with
    | none => rfl
    | some v =>
      rw [ih (t + 1) (sample (seedState (42 + t))).2 (tr ++ [v]) _ _]
      cases trial_slopes σ npts seedState sample fit y n (t + 1) with
      | none => rfl
      | some l => simp

/-- C6: the Monte Carlo trend simulator is deterministic — its result does
not depend on the incoming pseudo-random generator state, because every
trial `t` re-seeds the generator to `42 + t`; consequently the array of
simulated slopes equals the per-trial pure sequence `trial_slopes`
determined by the inputs alone. -/
theorem monte_carlo_trend_deterministic :
    (∀ (σ : Type) (npts : ℕ) (seedState : ℕ → σ)
      (sample : σ → (Fin npts → ℝ) × σ) (fit : (Fin npts → ℝ) → Option ℝ)
      (acovf : (Fin npts → ℝ) → ℕ → ℝ) (max_siml maxlag : ℕ)
      (y : Fin npts → ℝ) (s₁ s₂ : σ),
      monte_carlo_trend σ npts seedState sample fit acovf max_siml maxlag y s₁ =
      monte_carlo_trend σ npts seedState sample fit acovf max_siml maxlag y s₂)
    ∧ (∀ (σ : Type) (npts : ℕ) (seedState : ℕ → σ)
      (sample : σ → (Fin npts → ℝ) × σ) (fit : (Fin npts → ℝ) → Option ℝ)
      (acovf : (Fin npts → ℝ) → ℕ → ℝ) (max_siml maxlag : ℕ)
      (y : Fin npts → ℝ) (s : σ),
      (monte_carlo_trend σ npts seedState sample fit acovf max_siml maxlag
        y s).map (fun r => r.1) =
      trial_slopes σ npts seedState sample fit y max_siml 0) := by
  constructor
  · intro σ npts seedState sample fit acovf max_siml maxlag y s₁ s₂
    rw [monte_carlo_trend, monte_carlo_trend,
      mc_loop_state_independent σ npts seedState sample fit acovf maxlag y
        max_siml 0 s₁ s₂]
  · intro σ npts seedState sample fit acovf max_siml maxlag y s
    have h := mc_loop_trends σ npts seedState sample fit acovf maxlag y
      max_siml 0 s [] [] (fun _ => 0)
    simp only [List.nil_append] at h
    rw [monte_carlo_trend]
    cases hm : mc_loop σ npts seedState sample fit acovf maxlag y max_siml 0 s
        ([], [], fun _ => 0) with
    | none =>
      rw [hm] at h
      have h' : trial_slopes σ npts seedState sample fit y max_siml 0 = none := by
        cases hts : trial_slopes σ npts seedState sample fit y max_siml 0 with
        | none => rfl
        | some l =>
          rw [hts] at h
          simp at h
      rw [h']
      rfl
    | some acc =>
      rw [hm] at h
      have h' : trial_slopes σ npts seedState sample fit y max_siml 0 =
          some acc.1 := by
        cases hts : trial_slopes σ npts seedState sample fit y max_siml 0 with
        | none =>
          rw [hts] at h
          simp at h
        | some l =>
          rw [hts] at h
          simp at h
          simp [h]
      rw [h']
      rfl

end

end TrendEstimation
